import Mathlib

/-!
# Verification of the Higuchi Fractal Dimension kernel (`src/methods/fractal.py`)

Shallow embedding of the function `higuchi_fractal` over exact rational
arithmetic.  Floating-point values of the source are idealised as `ℚ`; the
transcendental `np.log` is an abstract parameter `log : ℚ → ℚ` (every
theorem below is proved for every such function, and witnesses instantiate
it with a concrete computable function).  In exact rational arithmetic no
value is infinite or NaN, so the source's finiteness mask
`~np.isinf(lk) & ~np.isnan(lk)` is identically true; where the source
indexes with that mask the embedding uses the whole list, and the guard
`valid.sum() < 2` becomes `scales.length < 2`.
-/

namespace Higuchi

/-- `np.arange m n k`: the indices `m, m + k, m + 2k, …` strictly below `n`
(source line 128, `idx = np.arange(m, n_time, k)`). -/
def arange (m n k : ℕ) : List ℕ :=
  (List.range ((n - m + k - 1) / k)).map (fun i => m + i * k)

/-- `sig[idx]` for `idx = arange m n k` with `n = sig.length`
(source line 130, `seg = sig[idx]`).  Indices produced by `arange` are
in bounds, so the default value of `getD` is never used. -/
def subseqAt (sig : List ℚ) (m k : ℕ) : List ℚ :=
  (arange m sig.length k).map (fun i => sig.getD i 0)

/-- `np.abs (np.diff seg)`: absolute first differences
(source line 131, `d = np.abs(np.diff(seg))`). -/
def absDiffs (l : List ℚ) : List ℚ :=
  (l.zip l.tail).map (fun p => |p.2 - p.1|)

/-- `L_mk = (d.sum() * (n_time - 1)) / (d.size * k)` (source line 132),
with `n_time = sig.length`. -/
def lengthContribution (sig : List ℚ) (m k : ℕ) : ℚ :=
  let d := absDiffs (subseqAt sig m k)
  (d.sum * ((sig.length : ℚ) - 1)) / ((d.length : ℚ) * (k : ℚ))

/-- The accumulation loop over offsets `m ∈ [0, k)` (source lines 125-134):
returns the pair `(sum_l, count)`, where an offset contributes exactly when
its index sequence has at least 2 entries (`idx.size >= 2`, line 129). -/
def higuchiLoop (sig : List ℚ) (k : ℕ) : ℚ × ℕ :=
  (List.range k).foldl
    (fun acc m =>
      if 2 ≤ (arange m sig.length k).length then
        (acc.1 + lengthContribution sig m k, acc.2 + 1)
      else acc)
    (0, 0)

/-- The offsets `m ∈ [0, k)` that pass the guard `idx.size >= 2`. -/
def qualifyingOffsets (n k : ℕ) : List ℕ :=
  (List.range k).filter (fun m => 2 ≤ (arange m n k).length)

/-- The per-scale curve length `Lk = sum_l / count` (source line 138).
In `ℚ`, division by `0` yields `0`, so when no offset qualifies
(`count = 0`) the value is `0`. -/
def curveLength (sig : List ℚ) (k : ℕ) : ℚ :=
  (higuchiLoop sig k).1 / ((higuchiLoop sig k).2 : ℚ)

/-- The regression guard constant `1e-12` (source line 139), idealised as
the exact rational `10⁻¹²`. -/
def eps : ℚ := 1 / 10 ^ 12

/-- The entry stored in the array `lk` at scale `k` (source lines 135-139):
`0.0` when no offset qualified, otherwise `log (Lk + 1e-12)`. -/
def lkEntry (log : ℚ → ℚ) (sig : List ℚ) (k : ℕ) : ℚ :=
  if (higuchiLoop sig k).2 = 0 then 0
  else log (curveLength sig k + eps)

/-- `int(10 ** (i * log10 M / 9))`, the `i`-th entry of
`np.logspace(0, np.log10(max_k), num=10, dtype=int)` (source line 118) in
exact arithmetic: the floor of `M ^ (i/9)`, i.e. the greatest `j ≤ M` with
`j ^ 9 ≤ M ^ i` (the `float → int` cast truncates towards zero, which on
these values `≥ 1` is the floor). -/
def scaleVal (M i : ℕ) : ℕ :=
  Nat.findGreatest (fun j => j ^ 9 ≤ M ^ i) M

/-- `np.unique`: sort ascending, then remove duplicates (keeping the first
occurrence, which on a sorted list keeps one copy of each value). -/
def npUnique (l : List ℕ) : List ℕ :=
  (List.insertionSort (· ≤ ·) l).dedup

/-- The scale list (source lines 118-119):
`scales = np.unique(np.logspace(0, np.log10(max_k), num=10, dtype=int))`
followed by `scales = scales[scales >= 1]`. -/
def scaleList (M : ℕ) : List ℕ :=
  (npUnique ((List.range 10).map (scaleVal M))).filter (fun s => 1 ≤ s)

/-- `sig - sig.mean()` (source line 122). -/
def centered (sig : List ℚ) : List ℚ :=
  sig.map (fun x => x - sig.sum / (sig.length : ℚ))

/-- Sum of the first components of a point list. -/
def sumX (pts : List (ℚ × ℚ)) : ℚ := (pts.map Prod.fst).sum

/-- Sum of the second components of a point list. -/
def sumY (pts : List (ℚ × ℚ)) : ℚ := (pts.map Prod.snd).sum

/-- Sum of squares of the first components. -/
def sumXX (pts : List (ℚ × ℚ)) : ℚ := (pts.map (fun p => p.1 * p.1)).sum

/-- Sum of the products of the components. -/
def sumXY (pts : List (ℚ × ℚ)) : ℚ := (pts.map (fun p => p.1 * p.2)).sum

/-- Sum of squares of the second components (used only in proofs). -/
def sumYY (pts : List (ℚ × ℚ)) : ℚ := (pts.map (fun p => p.2 * p.2)).sum

/-- The least-squares denominator `n·Σx² − (Σx)²`. -/
def lsqDen (pts : List (ℚ × ℚ)) : ℚ :=
  (pts.length : ℚ) * sumXX pts - sumX pts * sumX pts

/-- `np.polyfit(x, y, 1)[0]` (source line 145): the slope of the
degree-one least-squares fit, in closed form
`(n·Σxy − Σx·Σy) / (n·Σx² − (Σx)²)`.  `np.polyfit` is an external library
routine; its documented behaviour (minimising the sum of squared
residuals) is modelled by this formula, and `polyfit_slope_is_lsq_min`
below proves that the formula does minimise the residuals. -/
def polyfitSlope (pts : List (ℚ × ℚ)) : ℚ :=
  ((pts.length : ℚ) * sumXY pts - sumX pts * sumY pts) / lsqDen pts

/-- The intercept of the degree-one least-squares fit,
`(Σy − slope·Σx) / n`. -/
def polyfitIntercept (pts : List (ℚ × ℚ)) : ℚ :=
  (sumY pts - polyfitSlope pts * sumX pts) / (pts.length : ℚ)

/-- Residual sum of squares of the line `y = s·x + b` on a point list. -/
def rss (pts : List (ℚ × ℚ)) (s b : ℚ) : ℚ :=
  (pts.map (fun p => (p.2 - (s * p.1 + b)) ^ 2)).sum

/-- The regression step for one signal (source lines 122-146), given the
effective maximum scale `maxk = min kmax (n_time // 2)`: mean-center,
compute the `lk` array over the scale list, and return the fitted slope,
or `0.0` when fewer than 2 points remain.  In exact arithmetic every `lk`
entry is finite, so the source's mask `valid` is all-true and
`valid.sum() < 2` is `scales.length < 2`. -/
def hfdRegression (log : ℚ → ℚ) (maxk : ℕ) (sig : List ℚ) : ℚ :=
  if (scaleList maxk).length < 2 then 0
  else polyfitSlope
    (((scaleList maxk).zip
        ((scaleList maxk).map (fun k => lkEntry log (centered sig) k))).map
      (fun p => (log (1 / (p.1 : ℚ)), p.2)))

/-- The complete per-signal computation (source lines 110-146 restricted to
one signal of length `n_time = sig.length`): `0.0` when `n_time < 10` or
when the effective maximum scale is `< 2`, otherwise the regression
result. -/
def hfdSignal (log : ℚ → ℚ) (kmax : ℕ) (sig : List ℚ) : ℚ :=
  if sig.length < 10 then 0
  else if min kmax (sig.length / 2) < 2 then 0
  else hfdRegression log (min kmax (sig.length / 2)) sig

/-- Row `j` of the C-order reshape of `data` to `(count, n)`
(source line 108, `X_flat = X.reshape(trials * bands * electrodes, time)`):
the slice `data[j*n : j*n + n]`. -/
def row (data : List ℚ) (n j : ℕ) : List ℚ :=
  (data.drop (j * n)).take n

/-- The batch loop producing `hfd_vals` (source lines 110-146): the checks
`n_time < 10` and `max_k < 2` are hoisted out of the per-signal loop as in
the source; otherwise each of the `count = trials * bands * electrodes`
rows gets the regression result.  Each row of a well-formed reshape has
length exactly `n`, so the hoisted checks agree with the per-signal
branches of `hfdSignal` (proved in `hfdVals_eq_map_hfdSignal`). -/
def hfdVals (log : ℚ → ℚ) (kmax count n : ℕ) (data : List ℚ) : List ℚ :=
  if n < 10 then List.replicate count 0
  else if min kmax (n / 2) < 2 then List.replicate count 0
  else (List.range count).map (fun j => hfdRegression log (min kmax (n / 2)) (row data n j))

/-- An `np.ndarray` in C (row-major) order: a shape together with the flat
data buffer.  A reshape keeps `data` and changes only `shape`. -/
structure NDArray where
  shape : List ℕ
  data : List ℚ
  deriving DecidableEq

/-- Well-formedness of an `NDArray`: the buffer has one entry per index
tuple. -/
def NDArray.wf (a : NDArray) : Prop :=
  a.data.length = a.shape.prod

/-- Element of a rank-2 array at `(i, j)` in C order. -/
def NDArray.at2 (a : NDArray) (i j : ℕ) : ℚ :=
  a.data.getD (i * a.shape.getD 1 0 + j) 0

/-- Element of a rank-3 array at `(i, j, k)` in C order. -/
def NDArray.at3 (a : NDArray) (i j k : ℕ) : ℚ :=
  a.data.getD ((i * a.shape.getD 1 0 + j) * a.shape.getD 2 0 + k) 0

/-- The value bound to the key `'X'` of the payload: either a numpy array
or something of another type (source line 97 checks
`isinstance(X, np.ndarray)`). -/
inductive XField where
  | notArray : XField
  | array : NDArray → XField
  deriving DecidableEq

/-- The `eegdata` argument: either not a `dict` at all (source line 82), or
a `dict` which may or may not contain the key `'X'` (source line 84).
Other keys of the dictionary are irrelevant to the computation and are not
modelled. -/
inductive Payload where
  | notDict : Payload
  | dict : Option XField → Payload
  deriving DecidableEq

/-- The `kmax` argument: a Python `int`, or a value of another type
(source line 86 checks `isinstance(kmax, int)`). -/
inductive KmaxParam where
  | int : ℤ → KmaxParam
  | nonInt : KmaxParam
  deriving DecidableEq

/-- The error taxonomy of the spec, one constructor per raise site of the
source: `eegdata` not a dict (line 83), key `'X'` absent (line 85), `kmax`
not an integer (line 87), `eegdata['X']` not an ndarray (line 98), tensor
rank neither 3 nor 4 (lines 102-105, the error names the offending
shape). -/
inductive FractalError where
  | invalidPayload : FractalError
  | missingField : FractalError
  | invalidParameter : FractalError
  | invalidTensorType : FractalError
  | invalidShape : List ℕ → FractalError
  deriving DecidableEq

/-- The transform `higuchi_fractal` (source lines 49-152).  Checks follow
the source order: dict, key `'X'`, `kmax` type, `kmax < 2` clamp, legacy
flag merge, ndarray type, rank.  A rank-3 tensor is promoted by inserting
a singleton band axis (line 101); the output replaces `'X'` by the feature
tensor, reshaped to `(trials, bands*electrodes)` when the effective
flattening flag is set and `(trials, bands, electrodes)` otherwise (lines
148-151); only the new `'X'` tensor is returned here, the rest of the
dictionary passes through unchanged in the source. -/
def higuchi_fractal (log : ℚ → ℚ) (eegdata : Payload) (kmax : KmaxParam)
    (flating : Bool) (flattening : Option Bool) : Except FractalError NDArray :=
  match eegdata with
  | Payload.notDict => Except.error FractalError.invalidPayload
  | Payload.dict none => Except.error FractalError.missingField
  | Payload.dict (some xf) =>
    match kmax with
    | KmaxParam.nonInt => Except.error FractalError.invalidParameter
    | KmaxParam.int z =>
      let kz : ℕ := (max 2 z).toNat
      let flag := flating || flattening.getD false
      match xf with
      | XField.notArray => Except.error FractalError.invalidTensorType
      | XField.array a =>
        match a.shape with
        | [t, e, n] =>
          let vals := hfdVals log kz (t * 1 * e) n a.data
          if flag then Except.ok ⟨[t, 1 * e], vals⟩
          else Except.ok ⟨[t, 1, e], vals⟩
        | [t, b, e, n] =>
          let vals := hfdVals log kz (t * b * e) n a.data
          if flag then Except.ok ⟨[t, b * e], vals⟩
          else Except.ok ⟨[t, b, e], vals⟩
        | s => Except.error (FractalError.invalidShape s)

/-- The spec's formulation of one offset's normalized length contribution:
`L(m,k) = (sum of absolute first differences of the subsequence * (N-1))
/ ((subsequence length - 1) * k)`.  Stated in terms of the subsequence
length, where the source uses `d.size` (the number of difference pairs);
the two agree for qualifying offsets. -/
def specContribution (sig : List ℚ) (m k : ℕ) : ℚ :=
  ((absDiffs (subseqAt sig m k)).sum * ((sig.length : ℚ) - 1))
    / ((((subseqAt sig m k).length : ℚ) - 1) * (k : ℚ))

/-- The spec's regression input: the pairs `(log (1/k), log (Lk + ε))`
over all scales `k` of the scale set, where `Lk` is the per-scale curve
length of the mean-centered signal. -/
def regressionPoints (log : ℚ → ℚ) (maxk : ℕ) (sig : List ℚ) : List (ℚ × ℚ) :=
  (scaleList maxk).map
    (fun (k : ℕ) => (log (1 / (k : ℚ)), log (curveLength (centered sig) k + eps)))

/-- A payload carrying a tensor of the given shape and flat data under the
key `'X'`. -/
def mkPayload (shape : List ℕ) (data : List ℚ) : Payload :=
  Payload.dict (some (XField.array ⟨shape, data⟩))

/-! ## Basic lemmas about the index arithmetic and the offset loop -/

theorem arange_length (m n k : ℕ) : (arange m n k).length = (n - m + k - 1) / k := by
  simp [arange]

theorem two_le_arange_length_zero (n k : ℕ) (hk : 1 ≤ k) (hkn : 2 * k ≤ n) :
    2 ≤ (arange 0 n k).length := by
  rw [arange_length]
  rw [Nat.le_div_iff_mul_le (by omega)]
  omega

/-- The accumulation loop is the filtered sum together with the filtered
count. -/
theorem foldl_guard_eq (p : ℕ → Prop) [DecidablePred p] (f : ℕ → ℚ) :
    ∀ (l : List ℕ) (a : ℚ) (c : ℕ),
      l.foldl (fun acc m => if p m then (acc.1 + f m, acc.2 + 1) else acc) (a, c)
        = (a + ((l.filter (fun m => decide (p m))).map f).sum,
           c + (l.filter (fun m => decide (p m))).length) := by
  intro l
  induction l with
  | nil => intro a c; simp
  | cons hd tl ih =>
    intro a c
    by_cases h : p hd
    · simp only [List.foldl_cons, if_pos h, List.filter_cons, decide_eq_true_eq, h,
        if_pos, List.map_cons, List.sum_cons, List.length_cons]
      rw [ih]
      rw [Prod.mk.injEq]
      exact ⟨by ring, by omega⟩
    · simp only [List.foldl_cons, if_neg h, List.filter_cons, decide_eq_true_eq, h,
        if_false]
      rw [ih]

theorem higuchiLoop_eq (sig : List ℚ) (k : ℕ) :
    higuchiLoop sig k
      = (((qualifyingOffsets sig.length k).map (fun m => lengthContribution sig m k)).sum,
         (qualifyingOffsets sig.length k).length) := by
  have h := foldl_guard_eq (fun m => 2 ≤ (arange m sig.length k).length)
    (fun m => lengthContribution sig m k) (List.range k) 0 0
  simpa [higuchiLoop, qualifyingOffsets] using h

theorem curveLength_eq_mean (sig : List ℚ) (k : ℕ) :
    curveLength sig k
      = ((qualifyingOffsets sig.length k).map (fun m => lengthContribution sig m k)).sum
          / ((qualifyingOffsets sig.length k).length : ℚ) := by
  rw [curveLength, higuchiLoop_eq]

theorem zero_mem_qualifyingOffsets (n k : ℕ) (hk : 1 ≤ k) (hkn : 2 * k ≤ n) :
    0 ∈ qualifyingOffsets n k := by
  rw [qualifyingOffsets, List.mem_filter]
  refine ⟨List.mem_range.mpr hk, ?_⟩
  simpa using two_le_arange_length_zero n k hk hkn

theorem lengthContribution_nonneg (sig : List ℚ) (m k : ℕ) (h1 : 1 ≤ sig.length) :
    0 ≤ lengthContribution sig m k := by
  rw [lengthContribution]
  apply div_nonneg
  · apply mul_nonneg
    · apply List.sum_nonneg
      intro x hx
      rw [absDiffs] at hx
      obtain ⟨p, _, rfl⟩ := List.mem_map.mp hx
      exact abs_nonneg _
    · have : (1 : ℚ) ≤ (sig.length : ℚ) := by exact_mod_cast h1
      linarith
  · positivity

theorem curveLength_nonneg (sig : List ℚ) (k : ℕ) (h1 : 1 ≤ sig.length) :
    0 ≤ curveLength sig k := by
  rw [curveLength_eq_mean]
  apply div_nonneg
  · apply List.sum_nonneg
    intro x hx
    obtain ⟨m, _, rfl⟩ := List.mem_map.mp hx
    exact lengthContribution_nonneg sig m k h1
  · positivity

/-! ## Lemmas about the scale list -/

theorem scaleVal_le (M i : ℕ) : scaleVal M i ≤ M :=
  Nat.findGreatest_le M

theorem one_le_scaleVal (M i : ℕ) (hM : 1 ≤ M) : 1 ≤ scaleVal M i :=
  Nat.le_findGreatest hM (by simpa using Nat.one_le_pow i M hM)

theorem scaleVal_mono (M : ℕ) {i j : ℕ} (hM : 1 ≤ M) (hij : i ≤ j) :
    scaleVal M i ≤ scaleVal M j :=
  Nat.findGreatest_mono
    (fun x hx => hx.trans (Nat.pow_le_pow_right hM hij)) le_rfl

theorem scaleVal_zero (M : ℕ) (hM : 1 ≤ M) : scaleVal M 0 = 1 := by
  refine le_antisymm ?_ (one_le_scaleVal M 0 hM)
  by_contra h
  push_neg at h
  have hspec : scaleVal M 0 ^ 9 ≤ M ^ 0 :=
    Nat.findGreatest_spec (P := fun j => j ^ 9 ≤ M ^ 0) hM (by simp)
  have h2 : 2 ^ 9 ≤ scaleVal M 0 ^ 9 := Nat.pow_le_pow_left (by omega) 9
  simp only [pow_zero] at hspec
  omega

theorem scaleVal_nine (M : ℕ) (hM : 1 ≤ M) : scaleVal M 9 = M :=
  le_antisymm (scaleVal_le M 9) (Nat.le_findGreatest le_rfl le_rfl)

theorem rawScales_sorted (M : ℕ) (hM : 1 ≤ M) :
    ((List.range 10).map (scaleVal M)).Sorted (· ≤ ·) := by
  rw [List.Sorted, List.pairwise_map]
  exact (List.pairwise_lt_range 10).imp (fun h => scaleVal_mono M hM (le_of_lt h))

theorem npUnique_of_sorted (l : List ℕ) (h : l.Sorted (· ≤ ·)) :
    npUnique l = l.dedup := by
  rw [npUnique, h.insertionSort_eq]

theorem sorted_lt_dedup (l : List ℕ) (h : l.Sorted (· ≤ ·)) :
    l.dedup.Sorted (· < ·) := by
  have h1 : l.dedup.Pairwise (· ≤ ·) := List.Pairwise.sublist (l.dedup_sublist) h
  have h2 : l.dedup.Nodup := l.nodup_dedup
  exact (h1.and h2).imp (fun h => lt_of_le_of_ne h.1 h.2)

theorem scaleList_sorted_lt (M : ℕ) (hM : 1 ≤ M) :
    (scaleList M).Sorted (· < ·) := by
  rw [scaleList, npUnique_of_sorted _ (rawScales_sorted M hM)]
  exact (sorted_lt_dedup _ (rawScales_sorted M hM)).filter _

theorem scaleList_nodup (M : ℕ) (hM : 1 ≤ M) : (scaleList M).Nodup :=
  (scaleList_sorted_lt M hM).imp ne_of_lt

theorem scaleList_length_le (M : ℕ) : (scaleList M).length ≤ 10 := by
  rw [scaleList, npUnique]
  calc ((List.insertionSort (· ≤ ·) ((List.range 10).map (scaleVal M))).dedup.filter
          (fun s => 1 ≤ s)).length
      ≤ (List.insertionSort (· ≤ ·) ((List.range 10).map (scaleVal M))).dedup.length :=
        List.length_filter_le _ _
    _ ≤ (List.insertionSort (· ≤ ·) ((List.range 10).map (scaleVal M))).length :=
        (List.dedup_sublist _).length_le
    _ = 10 := by
        rw [(List.perm_insertionSort _ _).length_eq]
        simp

theorem mem_scaleList_iff (M s : ℕ) (hM : 1 ≤ M) :
    s ∈ scaleList M ↔ (∃ i < 10, scaleVal M i = s) ∧ 1 ≤ s := by
  rw [scaleList, npUnique_of_sorted _ (rawScales_sorted M hM), List.mem_filter,
    List.mem_dedup, List.mem_map]
  simp [List.mem_range]

theorem mem_scaleList_bounds (M s : ℕ) (hM : 1 ≤ M) (hs : s ∈ scaleList M) :
    1 ≤ s ∧ s ≤ M := by
  rw [mem_scaleList_iff M s hM] at hs
  obtain ⟨⟨i, _, rfl⟩, h1⟩ := hs
  exact ⟨h1, scaleVal_le M i⟩

theorem one_mem_scaleList (M : ℕ) (hM : 1 ≤ M) : 1 ∈ scaleList M := by
  rw [mem_scaleList_iff M 1 hM]
  exact ⟨⟨0, by omega, scaleVal_zero M hM⟩, le_rfl⟩

theorem max_mem_scaleList (M : ℕ) (hM : 1 ≤ M) : M ∈ scaleList M := by
  rw [mem_scaleList_iff M M hM]
  exact ⟨⟨9, by omega, scaleVal_nine M hM⟩, hM⟩

theorem two_le_length_of_two_mem {l : List ℕ} {a b : ℕ} (ha : a ∈ l) (hb : b ∈ l)
    (hab : a ≠ b) : 2 ≤ l.length := by
  match l with
  | [] => cases ha
  | [x] =>
    rw [List.mem_singleton] at ha hb
    exact absurd (ha.trans hb.symm) hab
  | x :: y :: tl => simp [Nat.succ_le_succ, Nat.le_add_left]

theorem two_le_scaleList_length (M : ℕ) (hM : 2 ≤ M) :
    2 ≤ (scaleList M).length :=
  two_le_length_of_two_mem (one_mem_scaleList M (by omega))
    (max_mem_scaleList M (by omega)) (by omega)

/-! ## Lemmas about the least-squares fit -/

theorem sumX_cons (p : ℚ × ℚ) (pts : List (ℚ × ℚ)) : sumX (p :: pts) = p.1 + sumX pts := by
  simp [sumX]

theorem sumY_cons (p : ℚ × ℚ) (pts : List (ℚ × ℚ)) : sumY (p :: pts) = p.2 + sumY pts := by
  simp [sumY]

theorem sumXX_cons (p : ℚ × ℚ) (pts : List (ℚ × ℚ)) :
    sumXX (p :: pts) = p.1 * p.1 + sumXX pts := by
  simp [sumXX]

theorem sumXY_cons (p : ℚ × ℚ) (pts : List (ℚ × ℚ)) :
    sumXY (p :: pts) = p.1 * p.2 + sumXY pts := by
  simp [sumXY]

theorem sumYY_cons (p : ℚ × ℚ) (pts : List (ℚ × ℚ)) :
    sumYY (p :: pts) = p.2 * p.2 + sumYY pts := by
  simp [sumYY]

/-- Expansion of the residual sum of squares in terms of the moment sums. -/
theorem rss_expand (pts : List (ℚ × ℚ)) (s b : ℚ) :
    rss pts s b
      = sumYY pts - 2 * s * sumXY pts - 2 * b * sumY pts + s ^ 2 * sumXX pts
        + 2 * s * b * sumX pts + (pts.length : ℚ) * b ^ 2 := by
  induction pts with
  | nil => simp [rss, sumYY, sumXY, sumY, sumXX, sumX]
  | cons p tl ih =>
    rw [rss, List.map_cons, List.sum_cons, ← rss, ih,
      sumYY_cons, sumXY_cons, sumY_cons, sumXX_cons, sumX_cons, List.length_cons]
    push_cast
    ring

/-- The closed-form slope and intercept minimise the residual sum of
squares: `np.polyfit(x, y, 1)` is the ordinary least-squares line. -/
theorem polyfit_slope_is_lsq_min (pts : List (ℚ × ℚ)) (hD : 0 < lsqDen pts)
    (s b : ℚ) :
    rss pts (polyfitSlope pts) (polyfitIntercept pts) ≤ rss pts s b := by
  have hn : pts ≠ [] := by
    intro h
    rw [h] at hD
    simp [lsqDen, sumXX, sumX] at hD
  have hnQ : 0 < (pts.length : ℚ) := by
    have := List.length_pos.mpr hn
    exact_mod_cast this
  have hDne : lsqDen pts ≠ 0 := ne_of_gt hD
  have hnne : (pts.length : ℚ) ≠ 0 := ne_of_gt hnQ
  have key : (pts.length : ℚ) * (rss pts s b - rss pts (polyfitSlope pts) (polyfitIntercept pts))
      = lsqDen pts * (s - polyfitSlope pts) ^ 2
        + ((pts.length : ℚ) * b + s * sumX pts - sumY pts) ^ 2 := by
    rw [rss_expand, rss_expand, polyfitIntercept, polyfitSlope, lsqDen]
    rw [lsqDen] at hDne
    field_simp
    ring
  have hrhs : 0 ≤ (pts.length : ℚ) * (rss pts s b - rss pts (polyfitSlope pts) (polyfitIntercept pts)) := by
    rw [key]
    exact add_nonneg (mul_nonneg hD.le (sq_nonneg _)) (sq_nonneg _)
  have := (mul_nonneg_iff_of_pos_left hnQ).mp hrhs
  linarith

theorem sumY_const (pts : List (ℚ × ℚ)) (c : ℚ) (h : ∀ p ∈ pts, p.2 = c) :
    sumY pts = (pts.length : ℚ) * c := by
  induction pts with
  | nil => simp [sumY]
  | cons p tl ih =>
    rw [sumY_cons, h p (List.mem_cons_self p tl),
      ih (fun q hq => h q (List.mem_cons_of_mem p hq)), List.length_cons]
    push_cast
    ring

theorem sumXY_const (pts : List (ℚ × ℚ)) (c : ℚ) (h : ∀ p ∈ pts, p.2 = c) :
    sumXY pts = c * sumX pts := by
  induction pts with
  | nil => simp [sumXY, sumX]
  | cons p tl ih =>
    rw [sumXY_cons, sumX_cons, h p (List.mem_cons_self p tl),
      ih (fun q hq => h q (List.mem_cons_of_mem p hq))]
    ring

/-- If every ordinate is the same constant, the fitted slope is `0`. -/
theorem polyfitSlope_const_y (pts : List (ℚ × ℚ)) (c : ℚ)
    (h : ∀ p ∈ pts, p.2 = c) : polyfitSlope pts = 0 := by
  rw [polyfitSlope, sumY_const pts c h, sumXY_const pts c h]
  have : (pts.length : ℚ) * (c * sumX pts) - sumX pts * ((pts.length : ℚ) * c) = 0 := by ring
  rw [this, zero_div]

/-! ## Lemmas about mean-centering and constant signals -/

theorem centered_length (sig : List ℚ) : (centered sig).length = sig.length := by
  simp [centered]

theorem sum_map_add_const (sig : List ℚ) (c : ℚ) :
    (sig.map (fun x => x + c)).sum = sig.sum + (sig.length : ℚ) * c := by
  induction sig with
  | nil => simp
  | cons hd tl ih =>
    simp only [List.map_cons, List.sum_cons, ih, List.length_cons]
    push_cast
    ring

/-- Adding a constant to every sample does not change the centered signal. -/
theorem centered_map_add (sig : List ℚ) (c : ℚ) :
    centered (sig.map (fun x => x + c)) = centered sig := by
  rcases List.eq_nil_or_concat sig with rfl | _
  · rfl
  · have hne : sig ≠ [] := by
      rintro rfl
      simp at *
    have hlen : (sig.length : ℚ) ≠ 0 := by
      have := List.length_pos.mpr hne
      exact_mod_cast Nat.pos_iff_ne_zero.mp this
    rw [centered, centered, List.map_map, List.length_map, sum_map_add_const]
    apply List.map_congr_left
    intro x _
    simp only [Function.comp_apply]
    field_simp
    ring

theorem getD_replicate_zero (n i : ℕ) : (List.replicate n (0 : ℚ)).getD i 0 = 0 := by
  rw [List.getD_eq_getElem?_getD, List.getElem?_replicate]
  by_cases h : i < n <;> simp [h]

theorem centered_replicate (n : ℕ) (a : ℚ) :
    centered (List.replicate n a) = List.replicate n 0 := by
  rcases Nat.eq_zero_or_pos n with rfl | hn
  · rfl
  · have hlen : ((List.replicate n a).length : ℚ) ≠ 0 := by
      simp only [List.length_replicate]
      exact_mod_cast Nat.pos_iff_ne_zero.mp hn
    rw [centered, List.map_replicate, List.sum_replicate, List.length_replicate]
    congr 1
    rw [nsmul_eq_mul]
    rw [List.length_replicate] at hlen
    field_simp

/-- The absolute first differences of a list of zeros are all zero. -/
theorem absDiffs_sum_zero (l : List ℚ) (h : ∀ x ∈ l, x = 0) :
    (absDiffs l).sum = 0 := by
  apply List.sum_eq_zero
  intro y hy
  rw [absDiffs] at hy
  obtain ⟨p, hp, rfl⟩ := List.mem_map.mp hy
  obtain ⟨hp1, hp2⟩ := List.of_mem_zip hp
  rw [h p.1 hp1, h p.2 (List.mem_of_mem_tail hp2)]
  simp

/-- Every curve length of the all-zero signal is `0`. -/
theorem curveLength_replicate_zero (n k : ℕ) :
    curveLength (List.replicate n (0 : ℚ)) k = 0 := by
  rw [curveLength_eq_mean]
  have hsum : ((qualifyingOffsets (List.replicate n (0 : ℚ)).length k).map
      (fun m => lengthContribution (List.replicate n (0 : ℚ)) m k)).sum = 0 := by
    apply List.sum_eq_zero
    intro x hx
    obtain ⟨m, _, rfl⟩ := List.mem_map.mp hx
    rw [lengthContribution]
    have hd : (absDiffs (subseqAt (List.replicate n (0 : ℚ)) m k)).sum = 0 := by
      apply absDiffs_sum_zero
      intro x hx
      rw [subseqAt] at hx
      obtain ⟨i, _, rfl⟩ := List.mem_map.mp hx
      exact getD_replicate_zero n i
    rw [hd]
    simp
  rw [hsum, zero_div]

/-! ## Bridge lemmas used by the claim theorems -/

/-- Scale-list membership bounds, with no positivity assumption on `M`. -/
theorem mem_scaleList_le (M s : ℕ) (hs : s ∈ scaleList M) : 1 ≤ s ∧ s ≤ M := by
  rw [scaleList, List.mem_filter] at hs
  obtain ⟨hmem, hge⟩ := hs
  refine ⟨by simpa using hge, ?_⟩
  have h1 : s ∈ List.insertionSort (· ≤ ·) ((List.range 10).map (scaleVal M)) :=
    (List.dedup_sublist _).mem hmem
  have h2 : s ∈ (List.range 10).map (scaleVal M) :=
    (List.perm_insertionSort _ _).mem_iff.mp h1
  obtain ⟨i, _, rfl⟩ := List.mem_map.mp h2
  exact scaleVal_le M i

theorem qualifyingOffsets_ne_nil (n k : ℕ) (hk : 1 ≤ k) (hkn : 2 * k ≤ n) :
    qualifyingOffsets n k ≠ [] := by
  intro h
  have := zero_mem_qualifyingOffsets n k hk hkn
  rw [h] at this
  exact absurd this (List.not_mem_nil 0)

theorem higuchiLoop_count_ne_zero (sig : List ℚ) (k : ℕ) (hk : 1 ≤ k)
    (hkn : 2 * k ≤ sig.length) : (higuchiLoop sig k).2 ≠ 0 := by
  rw [higuchiLoop_eq]
  simpa using qualifyingOffsets_ne_nil sig.length k hk hkn

/-- On a scale whose offset loop counted at least one offset, the stored
`lk` entry is the logarithm of `Lk + ε`. -/
theorem lkEntry_eq_log (log : ℚ → ℚ) (sig : List ℚ) (k : ℕ) (hk : 1 ≤ k)
    (hkn : 2 * k ≤ sig.length) :
    lkEntry log sig k = log (curveLength sig k + eps) := by
  rw [lkEntry, if_neg (higuchiLoop_count_ne_zero sig k hk hkn)]

theorem subseqAt_length (sig : List ℚ) (m k : ℕ) :
    (subseqAt sig m k).length = (arange m sig.length k).length := by
  simp [subseqAt]

theorem absDiffs_length (l : List ℚ) : (absDiffs l).length = l.length - 1 := by
  rw [absDiffs, List.length_map, List.length_zip, List.length_tail]
  omega

/-- Zipping a list with its own image and mapping is a single map. -/
theorem map_zip_map {α β γ : Type} (l : List α) (f : α → β) (g : α × β → γ) :
    (l.zip (l.map f)).map g = l.map (fun k => g (k, f k)) := by
  induction l with
  | nil => rfl
  | cons hd tl ih => simp [List.zip_cons_cons, ih]

theorem hfdVals_length (log : ℚ → ℚ) (kmax count n : ℕ) (data : List ℚ) :
    (hfdVals log kmax count n data).length = count := by
  rw [hfdVals]
  split_ifs <;> simp

/-- The regression result depends on the raw signal only through its
mean-centered version. -/
theorem hfdRegression_congr (log : ℚ → ℚ) (maxk : ℕ) (sig sig' : List ℚ)
    (h : centered sig = centered sig') :
    hfdRegression log maxk sig = hfdRegression log maxk sig' := by
  simp only [hfdRegression, h]

/-! ## Computation lemmas for the transform -/

theorem higuchi_fractal_rank4 (log : ℚ → ℚ) (t b e n : ℕ) (data : List ℚ)
    (z : ℤ) (fl : Bool) (fo : Option Bool) :
    higuchi_fractal log (mkPayload [t, b, e, n] data) (KmaxParam.int z) fl fo
      = Except.ok ⟨if fl || fo.getD false then [t, b * e] else [t, b, e],
                   hfdVals log (max 2 z).toNat (t * b * e) n data⟩ := by
  by_cases h : (fl || fo.getD false) = true <;>
    simp [higuchi_fractal, mkPayload, h]

theorem higuchi_fractal_rank3 (log : ℚ → ℚ) (t e n : ℕ) (data : List ℚ)
    (z : ℤ) (fl : Bool) (fo : Option Bool) :
    higuchi_fractal log (mkPayload [t, e, n] data) (KmaxParam.int z) fl fo
      = Except.ok ⟨if fl || fo.getD false then [t, 1 * e] else [t, 1, e],
                   hfdVals log (max 2 z).toNat (t * 1 * e) n data⟩ := by
  by_cases h : (fl || fo.getD false) = true <;>
    simp [higuchi_fractal, mkPayload, h]

/-! ## Claim theorems -/

/-- C1: For every signal of length `N ≥ 10` and every scale `k` of the
scale set, the per-scale curve length `Lk` is the arithmetic mean, over
exactly the offsets `m ∈ [0, k)` whose subsequence has at least 2 samples,
of `L(m,k) = (Σ|Δ| * (N-1)) / ((subsequence length - 1) * k)`; at least
one offset always qualifies, and for a scale with no qualifying offset the
curve length is treated as `0`. -/
theorem C1_curveLength_is_mean_over_qualifying_offsets
    (kmax : ℕ) (sig : List ℚ) (k : ℕ) (h10 : 10 ≤ sig.length)
    (hk : k ∈ scaleList (min kmax (sig.length / 2))) :
    qualifyingOffsets sig.length k ≠ [] ∧
    curveLength sig k
      = ((qualifyingOffsets sig.length k).map (fun m => specContribution sig m k)).sum
        / ((qualifyingOffsets sig.length k).length : ℚ) ∧
    (∀ j, qualifyingOffsets sig.length j = [] → curveLength sig j = 0) := by
  obtain ⟨hk1, hkM⟩ := mem_scaleList_le _ k hk
  have hkn : 2 * k ≤ sig.length := by omega
  refine ⟨qualifyingOffsets_ne_nil sig.length k hk1 hkn, ?_, ?_⟩
  · rw [curveLength_eq_mean]
    congr 1
    congr 1
    apply List.map_congr_left
    intro m hm
    rw [qualifyingOffsets, List.mem_filter] at hm
    have hseg : 2 ≤ (subseqAt sig m k).length := by
      rw [subseqAt_length]
      simpa using hm.2
    rw [lengthContribution, specContribution, absDiffs_length,
      Nat.cast_sub (by omega : 1 ≤ (subseqAt sig m k).length), Nat.cast_one]
  · intro j hj
    rw [curveLength_eq_mean, hj]
    simp

/-- C1 witness: the alternating length-10 signal with `kmax = 2` at the
scale `k = 2`. -/
theorem C1_witness :
    (10 ≤ ([0, 1, 0, 1, 0, 1, 0, 1, 0, 1] : List ℚ).length ∧
      2 ∈ scaleList (min 2 (([0, 1, 0, 1, 0, 1, 0, 1, 0, 1] : List ℚ).length / 2))) ∧
    (qualifyingOffsets ([0, 1, 0, 1, 0, 1, 0, 1, 0, 1] : List ℚ).length 2 ≠ [] ∧
      curveLength [0, 1, 0, 1, 0, 1, 0, 1, 0, 1] 2
        = ((qualifyingOffsets ([0, 1, 0, 1, 0, 1, 0, 1, 0, 1] : List ℚ).length 2).map
            (fun m => specContribution [0, 1, 0, 1, 0, 1, 0, 1, 0, 1] m 2)).sum
          / ((qualifyingOffsets ([0, 1, 0, 1, 0, 1, 0, 1, 0, 1] : List ℚ).length 2).length : ℚ) ∧
      (∀ j, qualifyingOffsets ([0, 1, 0, 1, 0, 1, 0, 1, 0, 1] : List ℚ).length j = []
        → curveLength [0, 1, 0, 1, 0, 1, 0, 1, 0, 1] j = 0)) :=
  ⟨⟨by decide, by decide⟩,
   C1_curveLength_is_mean_over_qualifying_offsets 2 [0, 1, 0, 1, 0, 1, 0, 1, 0, 1] 2
     (by decide) (by decide)⟩

/-- C6: for every `kmax` and time length `n` with effective maximum scale
`M = min kmax (n / 2) ≥ 2`, the scale set is strictly increasing,
duplicate-free, of cardinality at most 10, with every element between 1
and `M` inclusive. -/
theorem C6_scaleList_invariants (kmax n : ℕ) (h2 : 2 ≤ min kmax (n / 2)) :
    (scaleList (min kmax (n / 2))).Sorted (· < ·) ∧
    (scaleList (min kmax (n / 2))).Nodup ∧
    (scaleList (min kmax (n / 2))).length ≤ 10 ∧
    ∀ s ∈ scaleList (min kmax (n / 2)), 1 ≤ s ∧ s ≤ min kmax (n / 2) := by
  refine ⟨scaleList_sorted_lt _ (by omega), scaleList_nodup _ (by omega),
    scaleList_length_le _, fun s hs => mem_scaleList_le _ s hs⟩

/-- C6 witness: `kmax = 100`, `n = 20`. -/
theorem C6_witness :
    (2 ≤ min 100 (20 / 2)) ∧
    ((scaleList (min 100 (20 / 2))).Sorted (· < ·) ∧
      (scaleList (min 100 (20 / 2))).Nodup ∧
      (scaleList (min 100 (20 / 2))).length ≤ 10 ∧
      ∀ s ∈ scaleList (min 100 (20 / 2)), 1 ≤ s ∧ s ≤ min 100 (20 / 2)) :=
  ⟨by decide, C6_scaleList_invariants 100 20 (by decide)⟩

/-- C7: adding a constant offset to every sample of a signal leaves its
HFD output element unchanged. -/
theorem C7_mean_shift_invariance (log : ℚ → ℚ) (kmax : ℕ) (sig : List ℚ) (c : ℚ) :
    hfdSignal log kmax (sig.map (fun x => x + c)) = hfdSignal log kmax sig := by
  simp only [hfdSignal, List.length_map]
  split_ifs
  · rfl
  · rfl
  · exact hfdRegression_congr log _ _ sig (centered_map_add sig c)

/-- C8: a constant signal of length `n ≥ 10` with `kmax ≥ 2` has curve
length `0` at every scale of the scale set, and its output element is
exactly `0.0`. -/
theorem C8_constant_signal_zero (log : ℚ → ℚ) (kmax n : ℕ) (a : ℚ)
    (h10 : 10 ≤ n) (hkm : 2 ≤ kmax) :
    (∀ k ∈ scaleList (min kmax (n / 2)),
      curveLength (centered (List.replicate n a)) k = 0) ∧
    hfdSignal log kmax (List.replicate n a) = 0 := by
  have hc : centered (List.replicate n a) = List.replicate n 0 :=
    centered_replicate n a
  constructor
  · intro k _
    rw [hc]
    exact curveLength_replicate_zero n k
  · rw [hfdSignal, List.length_replicate, if_neg (by omega), if_neg (by omega)]
    rw [hfdRegression]
    by_cases hlen : (scaleList (min kmax (n / 2))).length < 2
    · rw [if_pos hlen]
    · rw [if_neg hlen]
      rw [map_zip_map]
      apply polyfitSlope_const_y _ (log eps)
      intro p hp
      obtain ⟨k, hkmem, rfl⟩ := List.mem_map.mp hp
      obtain ⟨hk1, hkM⟩ := mem_scaleList_le _ k hkmem
      have hkn : 2 * k ≤ (centered (List.replicate n a)).length := by
        rw [centered_length, List.length_replicate]
        omega
      rw [lkEntry_eq_log log _ k hk1 hkn, hc, curveLength_replicate_zero, zero_add]

/-- C8 witness: the constant signal `replicate 10 5` with `kmax = 2` and
`log` instantiated with the identity. -/
theorem C8_witness :
    (10 ≤ 10 ∧ 2 ≤ 2) ∧
    ((∀ k ∈ scaleList (min 2 (10 / 2)),
        curveLength (centered (List.replicate 10 (5 : ℚ))) k = 0) ∧
      hfdSignal id 2 (List.replicate 10 (5 : ℚ)) = 0) :=
  ⟨⟨by decide, by decide⟩, C8_constant_signal_zero id 2 10 5 (by decide) (by decide)⟩

/-- C10: when the per-signal computation is reached (`N ≥ 10` and
effective maximum scale `≥ 2`), every scale `k` of the scale set satisfies
`k ≤ N/2`, the offset `m = 0` yields a subsequence of at least 2 samples,
so some offset qualifies and the zero-qualifying branch is unreachable;
every curve length is nonnegative, so every regression ordinate is the
logarithm of a strictly positive quantity; and the scale set itself has at
least 2 scales, so the fewer-than-2-pairs fallback cannot trigger here. -/
theorem C10_no_degenerate_branch (log : ℚ → ℚ) (kmax : ℕ) (sig : List ℚ)
    (h10 : 10 ≤ sig.length) (h2 : 2 ≤ min kmax (sig.length / 2)) :
    (∀ k ∈ scaleList (min kmax (sig.length / 2)),
      k ≤ sig.length / 2 ∧
      2 ≤ (arange 0 sig.length k).length ∧
      qualifyingOffsets sig.length k ≠ [] ∧
      (higuchiLoop sig k).2 ≠ 0 ∧
      lkEntry log sig k = log (curveLength sig k + eps)) ∧
    (∀ k, 0 ≤ curveLength sig k) ∧
    (∀ k, 0 < curveLength sig k + eps) ∧
    2 ≤ (scaleList (min kmax (sig.length / 2))).length := by
  have heps : (0 : ℚ) < eps := by norm_num [eps]
  refine ⟨?_, ?_, ?_, two_le_scaleList_length _ h2⟩
  · intro k hk
    obtain ⟨hk1, hkM⟩ := mem_scaleList_le _ k hk
    have hkhalf : k ≤ sig.length / 2 := by omega
    have hkn : 2 * k ≤ sig.length := by omega
    exact ⟨hkhalf, two_le_arange_length_zero sig.length k hk1 hkn,
      qualifyingOffsets_ne_nil sig.length k hk1 hkn,
      higuchiLoop_count_ne_zero sig k hk1 hkn,
      lkEntry_eq_log log sig k hk1 hkn⟩
  · intro k
    exact curveLength_nonneg sig k (by omega)
  · intro k
    have := curveLength_nonneg sig k (by omega)
    linarith

/-- C10 witness: the alternating length-10 signal with `kmax = 2` and
`log` the identity. -/
theorem C10_witness :
    (10 ≤ ([0, 1, 0, 1, 0, 1, 0, 1, 0, 1] : List ℚ).length ∧
      2 ≤ min 2 (([0, 1, 0, 1, 0, 1, 0, 1, 0, 1] : List ℚ).length / 2)) ∧
    ((∀ k ∈ scaleList (min 2 (([0, 1, 0, 1, 0, 1, 0, 1, 0, 1] : List ℚ).length / 2)),
        k ≤ ([0, 1, 0, 1, 0, 1, 0, 1, 0, 1] : List ℚ).length / 2 ∧
        2 ≤ (arange 0 ([0, 1, 0, 1, 0, 1, 0, 1, 0, 1] : List ℚ).length k).length ∧
        qualifyingOffsets ([0, 1, 0, 1, 0, 1, 0, 1, 0, 1] : List ℚ).length k ≠ [] ∧
        (higuchiLoop [0, 1, 0, 1, 0, 1, 0, 1, 0, 1] k).2 ≠ 0 ∧
        lkEntry id [0, 1, 0, 1, 0, 1, 0, 1, 0, 1] k
          = id (curveLength [0, 1, 0, 1, 0, 1, 0, 1, 0, 1] k + eps)) ∧
      (∀ k, 0 ≤ curveLength [0, 1, 0, 1, 0, 1, 0, 1, 0, 1] k) ∧
      (∀ k, 0 < curveLength [0, 1, 0, 1, 0, 1, 0, 1, 0, 1] k + eps) ∧
      2 ≤ (scaleList (min 2 (([0, 1, 0, 1, 0, 1, 0, 1, 0, 1] : List ℚ).length / 2))).length) :=
  ⟨⟨by decide, by decide⟩,
   C10_no_degenerate_branch id 2 [0, 1, 0, 1, 0, 1, 0, 1, 0, 1] (by decide) (by decide)⟩

/-- C2: the per-signal HFD is computed from the pairs
`(log (1/k), log (Lk + 1e-12))` over the scale set: with fewer than 2
pairs the result is `0.0`, and otherwise it is the slope of the ordinary
least-squares line through the pairs (the closed-form slope, shown to
minimise the residual sum of squares whenever the least-squares
denominator is positive).  In exact rational arithmetic every ordinate is
finite, so the source's non-finite filter discards nothing. -/
theorem C2_hfd_is_ols_slope (log : ℚ → ℚ) (kmax : ℕ) (sig : List ℚ)
    (h10 : 10 ≤ sig.length) (h2 : 2 ≤ min kmax (sig.length / 2)) :
    (∀ mk : ℕ, (regressionPoints log mk sig).length < 2 →
      hfdRegression log mk sig = 0) ∧
    hfdSignal log kmax sig
      = polyfitSlope (regressionPoints log (min kmax (sig.length / 2)) sig) ∧
    (0 < lsqDen (regressionPoints log (min kmax (sig.length / 2)) sig) →
      ∀ s b,
        rss (regressionPoints log (min kmax (sig.length / 2)) sig)
          (polyfitSlope (regressionPoints log (min kmax (sig.length / 2)) sig))
          (polyfitIntercept (regressionPoints log (min kmax (sig.length / 2)) sig))
        ≤ rss (regressionPoints log (min kmax (sig.length / 2)) sig) s b) := by
  refine ⟨?_, ?_, ?_⟩
  · intro mk hlen
    rw [regressionPoints, List.length_map] at hlen
    rw [hfdRegression, if_pos hlen]
  · have hscales := two_le_scaleList_length _ h2
    rw [hfdSignal, if_neg (by omega), if_neg (by omega), hfdRegression,
      if_neg (by omega), map_zip_map, regressionPoints]
    congr 1
    apply List.map_congr_left
    intro k hkmem
    obtain ⟨hk1, hkM⟩ := mem_scaleList_le _ k hkmem
    have hkn : 2 * k ≤ (centered sig).length := by
      rw [centered_length]
      omega
    rw [lkEntry_eq_log log (centered sig) k hk1 hkn]
  · intro hD s b
    exact polyfit_slope_is_lsq_min _ hD s b

/-- C2 witness: the alternating length-10 signal, `kmax = 2`, `log = id`;
the least-squares denominator is positive there, so the minimisation
clause applies (instantiated at the competing line `y = 0·x + 0`). -/
theorem C2_witness :
    (10 ≤ ([0, 1, 0, 1, 0, 1, 0, 1, 0, 1] : List ℚ).length ∧
      2 ≤ min 2 (([0, 1, 0, 1, 0, 1, 0, 1, 0, 1] : List ℚ).length / 2) ∧
      0 < lsqDen (regressionPoints id
        (min 2 (([0, 1, 0, 1, 0, 1, 0, 1, 0, 1] : List ℚ).length / 2))
        [0, 1, 0, 1, 0, 1, 0, 1, 0, 1])) ∧
    hfdSignal id 2 [0, 1, 0, 1, 0, 1, 0, 1, 0, 1]
      = polyfitSlope (regressionPoints id
          (min 2 (([0, 1, 0, 1, 0, 1, 0, 1, 0, 1] : List ℚ).length / 2))
          [0, 1, 0, 1, 0, 1, 0, 1, 0, 1]) ∧
    rss (regressionPoints id
          (min 2 (([0, 1, 0, 1, 0, 1, 0, 1, 0, 1] : List ℚ).length / 2))
          [0, 1, 0, 1, 0, 1, 0, 1, 0, 1])
        (polyfitSlope (regressionPoints id
          (min 2 (([0, 1, 0, 1, 0, 1, 0, 1, 0, 1] : List ℚ).length / 2))
          [0, 1, 0, 1, 0, 1, 0, 1, 0, 1]))
        (polyfitIntercept (regressionPoints id
          (min 2 (([0, 1, 0, 1, 0, 1, 0, 1, 0, 1] : List ℚ).length / 2))
          [0, 1, 0, 1, 0, 1, 0, 1, 0, 1]))
      ≤ rss (regressionPoints id
          (min 2 (([0, 1, 0, 1, 0, 1, 0, 1, 0, 1] : List ℚ).length / 2))
          [0, 1, 0, 1, 0, 1, 0, 1, 0, 1]) 0 0 := by
  have hs : scaleList (min 2 (([0, 1, 0, 1, 0, 1, 0, 1, 0, 1] : List ℚ).length / 2))
      = [1, 2] := by decide
  have hD : 0 < lsqDen (regressionPoints id
      (min 2 (([0, 1, 0, 1, 0, 1, 0, 1, 0, 1] : List ℚ).length / 2))
      [0, 1, 0, 1, 0, 1, 0, 1, 0, 1]) := by
    rw [regressionPoints, hs]
    norm_num [lsqDen, sumX, sumXX, curveLength, higuchiLoop, lengthContribution,
      subseqAt, arange, absDiffs, centered, eps, List.range_succ]
  exact ⟨⟨by decide, by decide, hD⟩,
    (C2_hfd_is_ols_slope id 2 [0, 1, 0, 1, 0, 1, 0, 1, 0, 1] (by decide) (by decide)).2.1,
    (C2_hfd_is_ols_slope id 2 [0, 1, 0, 1, 0, 1, 0, 1, 0, 1] (by decide) (by decide)).2.2
      hD 0 0⟩

/-- C3: a valid rank-4 call succeeds, and its output has exactly one
element per (trial, band, electrode) triple: shape `(T, B, E)` in grid
layout and `(T, B·E)` in flattened layout; a rank-3 input is treated as
having exactly one band. -/
theorem C3_output_shape (log : ℚ → ℚ) (t b e n : ℕ) (data : List ℚ)
    (z : ℤ) (fl : Bool) (fo : Option Bool) :
    (∀ out,
      higuchi_fractal log (mkPayload [t, b, e, n] data) (KmaxParam.int z) fl fo
        = Except.ok out →
      out.shape = (if fl || fo.getD false then [t, b * e] else [t, b, e]) ∧
      out.data.length = t * b * e) ∧
    (∀ out,
      higuchi_fractal log (mkPayload [t, e, n] data) (KmaxParam.int z) fl fo
        = Except.ok out →
      out.shape = (if fl || fo.getD false then [t, 1 * e] else [t, 1, e]) ∧
      out.data.length = t * 1 * e) ∧
    (∃ out,
      higuchi_fractal log (mkPayload [t, b, e, n] data) (KmaxParam.int z) fl fo
        = Except.ok out) := by
  refine ⟨?_, ?_, ?_⟩
  · intro out hout
    rw [higuchi_fractal_rank4] at hout
    obtain rfl := (Except.ok.inj hout).symm
    exact ⟨rfl, hfdVals_length log _ _ n data⟩
  · intro out hout
    rw [higuchi_fractal_rank3] at hout
    obtain rfl := (Except.ok.inj hout).symm
    exact ⟨rfl, hfdVals_length log _ _ n data⟩
  · exact ⟨_, higuchi_fractal_rank4 log t b e n data z fl fo⟩

/-- C3 witness: a `(2, 3, 4, 12)` tensor of zeros with `kmax = 7` in grid
layout. -/
theorem C3_witness :
    (∃ out,
      higuchi_fractal id (mkPayload [2, 3, 4, 12] (List.replicate 288 0))
        (KmaxParam.int 7) false none = Except.ok out) ∧
    ∀ out,
      higuchi_fractal id (mkPayload [2, 3, 4, 12] (List.replicate 288 0))
        (KmaxParam.int 7) false none = Except.ok out →
      out.shape = (if (false : Bool) || (none : Option Bool).getD false
        then [2, 3 * 4] else [2, 3, 4]) ∧
      out.data.length = 2 * 3 * 4 :=
  ⟨(C3_output_shape id 2 3 4 12 (List.replicate 288 0) 7 false none).2.2,
   (C3_output_shape id 2 3 4 12 (List.replicate 288 0) 7 false none).1⟩

/-- C4: signals with time length `N < 10`, and signals whose effective
maximum scale `min kmax (N // 2)` is below 2, get the output element
`0.0`, the whole batch result being a constant-zero vector produced
without any per-signal curve-length or regression computation; at the
transform level, every element of the output tensor of an `N < 10` call is
exactly `0.0`. -/
theorem C4_short_signal_zero (log : ℚ → ℚ) (kmax count n : ℕ) (data : List ℚ)
    (t b e : ℕ) (z : ℤ) (fl : Bool) (fo : Option Bool) :
    (n < 10 → hfdVals log kmax count n data = List.replicate count 0) ∧
    (min kmax (n / 2) < 2 → hfdVals log kmax count n data = List.replicate count 0) ∧
    (n < 10 → ∀ out,
      higuchi_fractal log (mkPayload [t, b, e, n] data) (KmaxParam.int z) fl fo
        = Except.ok out →
      ∀ x ∈ out.data, x = 0) := by
  refine ⟨?_, ?_, ?_⟩
  · intro h
    rw [hfdVals, if_pos h]
  · intro h
    rw [hfdVals]
    by_cases h10 : n < 10
    · rw [if_pos h10]
    · rw [if_neg h10, if_pos h]
  · intro h out hout x hx
    rw [higuchi_fractal_rank4] at hout
    obtain rfl := (Except.ok.inj hout).symm
    rw [hfdVals, if_pos h] at hx
    exact List.eq_of_mem_replicate hx

/-- C4 witness: `n = 5 < 10` with a `(1, 1, 2, 5)` tensor, and the
degenerate-scale branch at `kmax = 1`, `n = 10`. -/
theorem C4_witness :
    ((5 < 10 ∧ min 1 (10 / 2) < 2) ∧
      hfdVals id 100 2 5 [1, 2, 3, 4, 5, 6, 7, 8, 9, 10] = List.replicate 2 0 ∧
      hfdVals id 1 2 10 (List.replicate 20 (3 : ℚ)) = List.replicate 2 0) ∧
    ∀ out,
      higuchi_fractal id (mkPayload [1, 1, 2, 5] [1, 2, 3, 4, 5, 6, 7, 8, 9, 10])
        (KmaxParam.int 100) false none = Except.ok out →
      ∀ x ∈ out.data, x = 0 :=
  ⟨⟨⟨by decide, by decide⟩,
    (C4_short_signal_zero id 100 2 5 [1, 2, 3, 4, 5, 6, 7, 8, 9, 10]
      1 1 2 100 false none).1 (by decide),
    (C4_short_signal_zero id 1 2 10 (List.replicate 20 (3 : ℚ))
      1 1 2 100 false none).2.1 (by decide)⟩,
   (C4_short_signal_zero id 100 2 5 [1, 2, 3, 4, 5, 6, 7, 8, 9, 10]
      1 1 2 100 false none).2.2 (by decide)⟩

/-- C5: the transform fails exactly on structurally malformed calls, with
the error of the matching raise site: non-dict payload, missing tensor
key, non-integer `kmax`, non-array tensor field, tensor rank neither 3 nor
4; an integer `kmax < 2` is clamped to 2 rather than rejected, and every
structurally well-formed call succeeds. -/
theorem C5_error_taxonomy (log : ℚ → ℚ) (fl : Bool) (fo : Option Bool) :
    (∀ km, higuchi_fractal log Payload.notDict km fl fo
      = Except.error FractalError.invalidPayload) ∧
    (∀ km, higuchi_fractal log (Payload.dict none) km fl fo
      = Except.error FractalError.missingField) ∧
    (∀ xf, higuchi_fractal log (Payload.dict (some xf)) KmaxParam.nonInt fl fo
      = Except.error FractalError.invalidParameter) ∧
    (∀ z : ℤ, higuchi_fractal log (Payload.dict (some XField.notArray))
      (KmaxParam.int z) fl fo = Except.error FractalError.invalidTensorType) ∧
    (∀ (z : ℤ) (a : NDArray), a.shape.length ≠ 3 → a.shape.length ≠ 4 →
      higuchi_fractal log (Payload.dict (some (XField.array a))) (KmaxParam.int z) fl fo
        = Except.error (FractalError.invalidShape a.shape)) ∧
    (∀ (p : Payload) (z : ℤ), z < 2 →
      higuchi_fractal log p (KmaxParam.int z) fl fo
        = higuchi_fractal log p (KmaxParam.int 2) fl fo) ∧
    (∀ (p : Payload) (km : KmaxParam),
      (∃ out, higuchi_fractal log p km fl fo = Except.ok out) ↔
      (∃ a : NDArray, p = Payload.dict (some (XField.array a)) ∧
        (a.shape.length = 3 ∨ a.shape.length = 4) ∧ ∃ z : ℤ, km = KmaxParam.int z)) := by
  refine ⟨fun km => rfl, fun km => rfl, fun xf => rfl, fun z => rfl, ?_, ?_, ?_⟩
  · intro z a h3 h4
    obtain ⟨shape, data⟩ := a
    simp only [NDArray.mk.injEq] at h3 h4 ⊢
    rcases shape with _ | ⟨x1, _ | ⟨x2, _ | ⟨x3, _ | ⟨x4, tl⟩⟩⟩⟩
    · rfl
    · rfl
    · rfl
    · simp at h3
    · rcases tl with _ | ⟨x5, tl⟩
      · simp at h4
      · rfl
  · intro p z hz
    have hmax : max 2 z = 2 := max_eq_left (by omega)
    cases p with
    | notDict => rfl
    | dict oxf =>
      cases oxf with
      | none => rfl
      | some xf => simp only [higuchi_fractal, hmax, max_self]
  · intro p km
    constructor
    · rintro ⟨out, hout⟩
      cases p with
      | notDict => simp [higuchi_fractal] at hout
      | dict oxf =>
        cases oxf with
        | none => simp [higuchi_fractal] at hout
        | some xf =>
          cases km with
          | nonInt => simp [higuchi_fractal] at hout
          | int z =>
            cases xf with
            | notArray => simp [higuchi_fractal] at hout
            | array a =>
              refine ⟨a, rfl, ?_, z, rfl⟩
              by_contra hlen
              push_neg at hlen
              obtain ⟨shape, data⟩ := a
              simp only [NDArray.mk.injEq] at hlen
              rcases shape with _ | ⟨x1, _ | ⟨x2, _ | ⟨x3, _ | ⟨x4, tl⟩⟩⟩⟩
              · simp [higuchi_fractal] at hout
              · simp [higuchi_fractal] at hout
              · simp [higuchi_fractal] at hout
              · exact hlen.1 rfl
              · rcases tl with _ | ⟨x5, tl⟩
                · exact hlen.2 rfl
                · simp [higuchi_fractal] at hout
    · rintro ⟨a, rfl, hlen, z, rfl⟩
      obtain ⟨shape, data⟩ := a
      rcases hlen with h3 | h4
      · rcases shape with _ | ⟨x1, _ | ⟨x2, _ | ⟨x3, _ | ⟨x4, tl⟩⟩⟩⟩ <;>
          simp only [List.length_nil, List.length_cons] at h3 <;> try omega
        exact ⟨_, higuchi_fractal_rank3 log x1 x2 x3 data z fl fo⟩
      · rcases shape with _ | ⟨x1, _ | ⟨x2, _ | ⟨x3, _ | ⟨x4, tl⟩⟩⟩⟩ <;>
          simp only [List.length_nil, List.length_cons] at h4 <;> try omega
        rcases tl with _ | ⟨x5, tl⟩
        · exact ⟨_, higuchi_fractal_rank4 log x1 x2 x3 x4 data z fl fo⟩
        · simp at h4

/-- C5 witness: each malformed call produces its error, a well-formed call
succeeds, and `kmax = 0` behaves as `kmax = 2`. -/
theorem C5_witness :
    higuchi_fractal id Payload.notDict (KmaxParam.int 5) false none
      = Except.error FractalError.invalidPayload ∧
    higuchi_fractal id (Payload.dict none) (KmaxParam.int 5) false none
      = Except.error FractalError.missingField ∧
    higuchi_fractal id (Payload.dict (some XField.notArray)) KmaxParam.nonInt false none
      = Except.error FractalError.invalidParameter ∧
    higuchi_fractal id (Payload.dict (some XField.notArray)) (KmaxParam.int 5) false none
      = Except.error FractalError.invalidTensorType ∧
    higuchi_fractal id (mkPayload [4, 7] [0]) (KmaxParam.int 5) false none
      = Except.error (FractalError.invalidShape [4, 7]) ∧
    higuchi_fractal id (mkPayload [1, 1, 1, 4] [1, 2, 3, 4]) (KmaxParam.int 0) false none
      = higuchi_fractal id (mkPayload [1, 1, 1, 4] [1, 2, 3, 4]) (KmaxParam.int 2) false none ∧
    (∃ out, higuchi_fractal id (mkPayload [1, 1, 1, 4] [1, 2, 3, 4])
      (KmaxParam.int 100) false none = Except.ok out) :=
  ⟨(C5_error_taxonomy id false none).1 (KmaxParam.int 5),
   (C5_error_taxonomy id false none).2.1 (KmaxParam.int 5),
   (C5_error_taxonomy id false none).2.2.1 XField.notArray,
   (C5_error_taxonomy id false none).2.2.2.1 5,
   (C5_error_taxonomy id false none).2.2.2.2.1 5 ⟨[4, 7], [0]⟩ (by decide) (by decide),
   (C5_error_taxonomy id false none).2.2.2.2.2.1 (mkPayload [1, 1, 1, 4] [1, 2, 3, 4])
     0 (by decide),
   ((C5_error_taxonomy id false none).2.2.2.2.2.2 (mkPayload [1, 1, 1, 4] [1, 2, 3, 4])
     (KmaxParam.int 100)).mpr ⟨⟨[1, 1, 1, 4], [1, 2, 3, 4]⟩, rfl, Or.inr (by decide), 100, rfl⟩⟩

/-- C9: the effective flattening flag is the logical OR of the primary
switch `flating` and the legacy synonym `flattening`; a call enabled
through the primary switch equals a call enabled through the legacy
synonym; and the flattened output at `(t, b·E + e)` equals the grid output
at `(t, b, e)` — the two layouts carry identical data. -/
theorem C9_flatten_or_and_value_equality (log : ℚ → ℚ) (p : Payload)
    (km : KmaxParam) (fl fo : Bool) (t b e n : ℕ) (data : List ℚ) (z : ℤ) :
    (higuchi_fractal log p km fl (some fo)
      = higuchi_fractal log p km (fl || fo) none) ∧
    (higuchi_fractal log p km true none
      = higuchi_fractal log p km false (some true)) ∧
    (∀ gridOut flatOut,
      higuchi_fractal log (mkPayload [t, b, e, n] data) (KmaxParam.int z) false none
        = Except.ok gridOut →
      higuchi_fractal log (mkPayload [t, b, e, n] data) (KmaxParam.int z) true none
        = Except.ok flatOut →
      flatOut.data = gridOut.data ∧
      ∀ ti bi ei, flatOut.at2 ti (bi * e + ei) = gridOut.at3 ti bi ei) := by
  refine ⟨?_, ?_, ?_⟩
  · simp only [higuchi_fractal, Option.getD_some, Option.getD_none, Bool.or_false]
  · simp only [higuchi_fractal, Option.getD_some, Option.getD_none, Bool.or_false,
      Bool.true_or, Bool.false_or]
  · intro gridOut flatOut hg hf
    rw [higuchi_fractal_rank4] at hg hf
    simp only [Option.getD_none, Bool.or_false, Bool.false_or, if_neg, if_pos,
      Bool.false_eq_true, if_false, if_true] at hg hf
    obtain rfl := (Except.ok.inj hg).symm
    obtain rfl := (Except.ok.inj hf).symm
    refine ⟨rfl, ?_⟩
    intro ti bi ei
    simp only [NDArray.at2, NDArray.at3, List.getD_cons_zero, List.getD_cons_succ]
    congr 1
    ring

/-- C9 witness: a `(1, 2, 3, 12)` batch; the flattened element at
`(0, 1·3 + 2)` equals the grid element at `(0, 1, 2)`. -/
theorem C9_witness :
    (higuchi_fractal id (mkPayload [1, 2, 3, 12] (List.replicate 72 0))
        (KmaxParam.int 4) false (some true)
      = higuchi_fractal id (mkPayload [1, 2, 3, 12] (List.replicate 72 0))
        (KmaxParam.int 4) (false || true) none) ∧
    ∀ gridOut flatOut,
      higuchi_fractal id (mkPayload [1, 2, 3, 12] (List.replicate 72 0))
        (KmaxParam.int 4) false none = Except.ok gridOut →
      higuchi_fractal id (mkPayload [1, 2, 3, 12] (List.replicate 72 0))
        (KmaxParam.int 4) true none = Except.ok flatOut →
      flatOut.at2 0 (1 * 3 + 2) = gridOut.at3 0 1 2 :=
  ⟨(C9_flatten_or_and_value_equality id (mkPayload [1, 2, 3, 12] (List.replicate 72 0))
      (KmaxParam.int 4) false true 1 2 3 12 (List.replicate 72 0) 4).1,
   fun gridOut flatOut hg hf =>
     ((C9_flatten_or_and_value_equality id (mkPayload [1, 2, 3, 12] (List.replicate 72 0))
        (KmaxParam.int 4) false true 1 2 3 12 (List.replicate 72 0) 4).2.2
       gridOut flatOut hg hf).2 0 1 2⟩

end Higuchi
